import Mathlib

/-!
Shallow embedding of the bit-exact data primitives of `portal-co/asm-common`
(`src/types/code.rs`, `src/types/perms.rs`, `src/types/value.rs`), together
with proofs and refutations of the specification's claims about them.

Machine integers are modelled as `Nat` with explicit `% 2 ^ w` where the Rust
code can wrap, and operations that can panic in Rust (shift amounts not below
the bit width, out-of-bounds indexing, unsigned subtraction underflow) are
modelled as `Option`-valued computations returning `none` at the panic point.
-/

namespace AsmCommon

/-! ## Fixed 32-bit word codec (`InstCodeI4` in `src/types/code.rs`) -/

/-- Checked `u32` left shift: Rust `x << s` on `u32` panics (in debug) when
`s ≥ 32`, and discards bits shifted above bit 31. -/
def shl32 (x s : Nat) : Option Nat :=
  if s < 32 then some ((x <<< s) % 2 ^ 32) else none

/-- Checked `u32` right shift: Rust `x >> s` on `u32` panics when `s ≥ 32`. -/
def shr32 (x s : Nat) : Option Nat :=
  if s < 32 then some (x >>> s) else none

/-- Rust `!m` on `u32`. -/
def not32 (m : Nat) : Nat := (2 ^ 32 - 1) ^^^ m

/-- A half-open bit (or byte) range `start..stop`, Rust `core::ops::Range`. -/
structure BitRange where
  start : Nat
  stop : Nat

/-- One iteration of the loop in `InstCodeI4::with`: given `(code, len)` —
the word being built and the bit count consumed from `val` so far — process
one range.  `none` models the panics of `r.end - r.start` underflow and of
shift-amount overflow. -/
def withStep (v : Nat) (p : Nat × Nat) (r : BitRange) : Option (Nat × Nat) :=
  if r.start ≤ r.stop then
    shl32 1 (r.stop - r.start) >>= fun m0 =>
    shl32 (m0 - 1) r.start >>= fun mask =>
    shr32 v p.2 >>= fun v1 =>
    shl32 v1 r.start >>= fun v2 =>
    some ((p.1 &&& not32 mask) ||| (v2 &&& mask), p.2 + (r.stop - r.start))
  else none

/-- The loop of `InstCodeI4::with` over the list of ranges. -/
def withLoop (v : Nat) : List BitRange → Nat × Nat → Option (Nat × Nat)
  | [], p => some p
  | r :: rs, p => withStep v p r >>= withLoop v rs

/-- `InstCodeI4::with(self, inst, val)` (src/types/code.rs lines 8-18). -/
def instWith (code : Nat) (rs : List BitRange) (v : Nat) : Option Nat :=
  (withLoop v rs (code, 0)).map Prod.fst

/-- One iteration of the loop in `InstCodeI4::extract`, on `(val, len)`. -/
def extractStep (code : Nat) (p : Nat × Nat) (r : BitRange) : Option (Nat × Nat) :=
  if r.start ≤ r.stop then
    shl32 1 (r.stop - r.start) >>= fun m0 =>
    shl32 (m0 - 1) r.start >>= fun mask =>
    shr32 (code &&& mask) r.start >>= fun t1 =>
    shl32 t1 p.2 >>= fun t2 =>
    some (p.1 ||| t2, p.2 + (r.stop - r.start))
  else none

/-- The loop of `InstCodeI4::extract` over the list of ranges. -/
def extractLoop (code : Nat) : List BitRange → Nat × Nat → Option (Nat × Nat)
  | [], p => some p
  | r :: rs, p => extractStep code p r >>= extractLoop code rs

/-- `InstCodeI4::extract(&self, list)` (src/types/code.rs lines 19-31). -/
def instExtract (code : Nat) (rs : List BitRange) : Option Nat :=
  (extractLoop code rs (0, 0)).map Prod.fst

/-- Total bit-width of a range list (the spec's `total_width(R)`). -/
def totalWidth (rs : List BitRange) : Nat :=
  (rs.map (fun r => r.stop - r.start)).sum

/-- Two ranges are disjoint (non-overlapping). -/
def RDisj (a b : BitRange) : Prop := a.stop ≤ b.start ∨ b.stop ≤ a.start

instance (a b : BitRange) : Decidable (RDisj a b) := by
  unfold RDisj; infer_instance

/-- The mask the code computes for a range, in closed form. -/
def mask32 (r : BitRange) : Nat := ((2 ^ (r.stop - r.start) - 1) <<< r.start) % 2 ^ 32

theorem optSomeBind {α β : Type} (a : α) (f : α → Option β) : some a >>= f = f a := rfl

theorem withStep_eq_some {v code len : Nat} {r : BitRange} {q : Nat × Nat} :
    withStep v (code, len) r = some q ↔
      r.start ≤ r.stop ∧ r.stop - r.start < 32 ∧ r.start < 32 ∧ len < 32 ∧
        q = ((code &&& not32 (mask32 r)) |||
              ((((v >>> len) <<< r.start) % 2 ^ 32) &&& mask32 r),
             len + (r.stop - r.start)) := by
  have h1 : r.stop - r.start < 32 →
      (1 <<< (r.stop - r.start)) % 2 ^ 32 = 2 ^ (r.stop - r.start) := fun hw => by
    rw [Nat.shiftLeft_eq, one_mul]
    exact Nat.mod_eq_of_lt (Nat.pow_lt_pow_right (by omega) hw)
  constructor
  · intro h
    unfold withStep shl32 shr32 at h
    by_cases hg : r.start ≤ r.stop
    case neg => rw [if_neg hg] at h; exact absurd h (by simp)
    rw [if_pos hg] at h
    by_cases hw : r.stop - r.start < 32
    case neg => rw [if_neg hw] at h; exact absurd h (by simp)
    rw [if_pos hw, optSomeBind] at h
    by_cases hs : r.start < 32
    case neg => rw [if_neg hs] at h; exact absurd h (by simp)
    rw [if_pos hs, optSomeBind] at h
    by_cases hl : len < 32
    case neg => rw [if_neg hl] at h; exact absurd h (by simp)
    rw [if_pos hl, optSomeBind, if_pos hs, optSomeBind, h1 hw] at h
    exact ⟨hg, hw, hs, hl, by rw [mask32]; exact (Option.some_inj.mp h).symm⟩
  · rintro ⟨hg, hw, hs, hl, rfl⟩
    unfold withStep shl32 shr32
    rw [if_pos hg, if_pos hw, optSomeBind, if_pos hs, optSomeBind,
      if_pos hl, optSomeBind, if_pos hs, optSomeBind, h1 hw, mask32]

theorem extractStep_eq_some {code acc len : Nat} {r : BitRange} {q : Nat × Nat} :
    extractStep code (acc, len) r = some q ↔
      r.start ≤ r.stop ∧ r.stop - r.start < 32 ∧ r.start < 32 ∧ len < 32 ∧
        q = (acc ||| ((((code &&& mask32 r) >>> r.start) <<< len) % 2 ^ 32),
             len + (r.stop - r.start)) := by
  have h1 : r.stop - r.start < 32 →
      (1 <<< (r.stop - r.start)) % 2 ^ 32 = 2 ^ (r.stop - r.start) := fun hw => by
    rw [Nat.shiftLeft_eq, one_mul]
    exact Nat.mod_eq_of_lt (Nat.pow_lt_pow_right (by omega) hw)
  constructor
  · intro h
    unfold extractStep shl32 shr32 at h
    by_cases hg : r.start ≤ r.stop
    case neg => rw [if_neg hg] at h; exact absurd h (by simp)
    rw [if_pos hg] at h
    by_cases hw : r.stop - r.start < 32
    case neg => rw [if_neg hw] at h; exact absurd h (by simp)
    rw [if_pos hw, optSomeBind] at h
    by_cases hs : r.start < 32
    case neg => rw [if_neg hs] at h; exact absurd h (by simp)
    rw [if_pos hs, optSomeBind, if_pos hs, optSomeBind] at h
    by_cases hl : len < 32
    case neg => rw [if_neg hl] at h; exact absurd h (by simp)
    rw [if_pos hl, optSomeBind, h1 hw] at h
    exact ⟨hg, hw, hs, hl, by rw [mask32]; exact (Option.some_inj.mp h).symm⟩
  · rintro ⟨hg, hw, hs, hl, rfl⟩
    unfold extractStep shl32 shr32
    rw [if_pos hg, if_pos hw, optSomeBind, if_pos hs, optSomeBind,
      if_pos hs, optSomeBind, if_pos hl, optSomeBind, h1 hw, mask32]

theorem mask32_testBit {r : BitRange} {i : Nat} :
    (mask32 r).testBit i = true ↔ r.start ≤ i ∧ i < r.stop ∧ i < 32 := by
  simp only [mask32, Nat.testBit_mod_two_pow, Nat.testBit_shiftLeft,
    Nat.testBit_two_pow_sub_one, Bool.and_eq_true, decide_eq_true_eq, ge_iff_le]
  omega

theorem not32_testBit {m i : Nat} :
    (not32 m).testBit i = ((decide (i < 32)).xor (m.testBit i)) := by
  simp only [not32, Nat.testBit_xor, Nat.testBit_two_pow_sub_one]

theorem frame_step {code z i : Nat} {r : BitRange} (hi : i < 32)
    (hout : ¬(r.start ≤ i ∧ i < r.stop)) :
    ((code &&& not32 (mask32 r)) ||| (z &&& mask32 r)).testBit i = code.testBit i := by
  have hm : (mask32 r).testBit i = false := by
    rw [← Bool.not_eq_true, mask32_testBit]; tauto
  simp [Nat.testBit_or, Nat.testBit_and, hm, not32_testBit, hi]

theorem masked_or {a z : Nat} {r : BitRange} :
    ((a &&& not32 (mask32 r)) ||| (z &&& mask32 r)) &&& mask32 r = z &&& mask32 r := by
  apply Nat.eq_of_testBit_eq
  intro i
  by_cases hm : (mask32 r).testBit i = true
  · have hi : i < 32 := (mask32_testBit.mp hm).2.2
    simp [Nat.testBit_or, Nat.testBit_and, hm, not32_testBit, hi]
  · simp only [Bool.not_eq_true] at hm
    simp [Nat.testBit_and, hm]

theorem read_back {x : Nat} {r : BitRange} (hs : r.stop ≤ 32) :
    (((x <<< r.start) % 2 ^ 32) &&& mask32 r) >>> r.start =
      x &&& (2 ^ (r.stop - r.start) - 1) := by
  apply Nat.eq_of_testBit_eq
  intro j
  rw [Bool.eq_iff_iff]
  simp only [Nat.testBit_shiftRight, Nat.testBit_and, Nat.testBit_mod_two_pow,
    Nat.testBit_shiftLeft, Nat.testBit_two_pow_sub_one, Bool.and_eq_true,
    decide_eq_true_eq, ge_iff_le, mask32_testBit]
  constructor
  · rintro ⟨⟨-, -, h3⟩, h4, h5, -⟩
    rw [show r.start + j - r.start = j from by omega] at h3
    exact ⟨h3, by omega⟩
  · rintro ⟨h1, h2⟩
    refine ⟨⟨by omega, by omega, ?_⟩, by omega, by omega, by omega⟩
    rw [show r.start + j - r.start = j from by omega]
    exact h1

theorem chunk_combine {x len w s : Nat} :
    (((x &&& (2 ^ w - 1)) <<< len) % 2 ^ 32) |||
        ((((x >>> w) &&& (2 ^ s - 1)) <<< (len + w)) % 2 ^ 32) =
      ((x &&& (2 ^ (w + s) - 1)) <<< len) % 2 ^ 32 := by
  apply Nat.eq_of_testBit_eq
  intro i
  rw [Bool.eq_iff_iff]
  simp only [Nat.testBit_or, Nat.testBit_mod_two_pow, Nat.testBit_shiftLeft,
    Nat.testBit_and, Nat.testBit_shiftRight, Nat.testBit_two_pow_sub_one,
    Bool.or_eq_true, Bool.and_eq_true, decide_eq_true_eq, ge_iff_le]
  constructor
  · rintro (⟨hi, hl, hx, hw⟩ | ⟨hi, hlw, hx, hs2⟩)
    · exact ⟨hi, hl, hx, by omega⟩
    · rw [show w + (i - (len + w)) = i - len from by omega] at hx
      exact ⟨hi, by omega, hx, by omega⟩
  · rintro ⟨hi, hl, hx, hws⟩
    by_cases hw : i - len < w
    · exact Or.inl ⟨hi, hl, hx, hw⟩
    · refine Or.inr ⟨hi, by omega, ?_, by omega⟩
      rw [show w + (i - (len + w)) = i - len from by omega]
      exact hx

theorem withLoop_frame {v : Nat} : ∀ {rs : List BitRange} {code len C L : Nat},
    withLoop v rs (code, len) = some (C, L) →
    ∀ {i : Nat}, i < 32 → (∀ r ∈ rs, ¬(r.start ≤ i ∧ i < r.stop)) →
    C.testBit i = code.testBit i := by
  intro rs
  induction rs with
  | nil =>
    intro code len C L h i hi hout
    simp only [withLoop, Option.some_inj, Prod.mk.injEq] at h
    rw [h.1]
  | cons r rs ih =>
    intro code len C L h i hi hout
    unfold withLoop at h
    cases hst : withStep v (code, len) r with
    | none => rw [hst] at h; cases h
    | some q =>
      rw [hst, optSomeBind] at h
      obtain ⟨hg, hw, hs, hl, rfl⟩ := withStep_eq_some.mp hst
      rw [ih h hi (fun r' hr' => hout r' (List.mem_cons_of_mem _ hr'))]
      exact frame_step hi (hout r (List.mem_cons_self _ _))

theorem totalWidth_cons {r : BitRange} {rs : List BitRange} :
    totalWidth (r :: rs) = (r.stop - r.start) + totalWidth rs := by
  simp [totalWidth]

theorem extract_of_withLoop {v : Nat} : ∀ {rs : List BitRange} {code len C L : Nat},
    (∀ r ∈ rs, r.stop ≤ 32) →
    List.Pairwise RDisj rs →
    withLoop v rs (code, len) = some (C, L) →
    ∀ acc, extractLoop C rs (acc, len) =
      some (acc ||| ((((v >>> len) &&& (2 ^ totalWidth rs - 1)) <<< len) % 2 ^ 32),
            len + totalWidth rs) := by
  intro rs
  induction rs with
  | nil =>
    intro code len C L hwf hdis h acc
    simp only [withLoop, Option.some_inj, Prod.mk.injEq] at h
    simp [extractLoop, totalWidth]
  | cons r rs ih =>
    intro code len C L hwf hdis h acc
    unfold withLoop at h
    cases hst : withStep v (code, len) r with
    | none => rw [hst] at h; cases h
    | some q =>
      rw [hst, optSomeBind] at h
      obtain ⟨hg, hw, hs, hl, rfl⟩ := withStep_eq_some.mp hst
      unfold extractLoop
      rw [extractStep_eq_some.mpr ⟨hg, hw, hs, hl, rfl⟩, optSomeBind]
      have hCmask : C &&& mask32 r =
          ((((v >>> len) <<< r.start) % 2 ^ 32) &&& mask32 r) := by
        have hfr : ∀ i, (mask32 r).testBit i = true → C.testBit i =
            (((code &&& not32 (mask32 r)) |||
              ((((v >>> len) <<< r.start) % 2 ^ 32) &&& mask32 r))).testBit i := by
          intro i him
          obtain ⟨h1, h2, h3⟩ := mask32_testBit.mp him
          refine withLoop_frame h h3 ?_
          intro r' hr' hmem
          rcases (List.pairwise_cons.mp hdis).1 r' hr' with hd | hd <;> omega
        have : C &&& mask32 r =
            (((code &&& not32 (mask32 r)) |||
              ((((v >>> len) <<< r.start) % 2 ^ 32) &&& mask32 r))) &&& mask32 r := by
          apply Nat.eq_of_testBit_eq
          intro i
          by_cases him : (mask32 r).testBit i = true
          · simp [Nat.testBit_and, him, hfr i him]
          · simp only [Bool.not_eq_true] at him
            simp [Nat.testBit_and, him]
        rw [this, masked_or]
      rw [hCmask, read_back (hwf r (List.mem_cons_self _ _)),
        ih (fun r' hr' => hwf r' (List.mem_cons_of_mem _ hr'))
          (List.pairwise_cons.mp hdis).2 h]
      congr 1
      rw [Prod.mk.injEq]
      constructor
      · rw [Nat.lor_assoc]
        congr 1
        rw [show v >>> (len + (r.stop - r.start)) = (v >>> len) >>> (r.stop - r.start) from
            Nat.shiftRight_add v len (r.stop - r.start),
          totalWidth_cons]
        exact chunk_combine
      · rw [totalWidth_cons]; omega

/-- C1: for a 32-bit word `w`, pairwise non-overlapping in-word ranges `R`,
and a `u32` value `v` of width at most the total range width, whenever
`with(w, R, v)` produces a word (does not panic), extracting with the same
ranges yields `v & mask(total_width(R))`. -/
theorem instCodeI4_with_extract_roundtrip
    {w : Nat} (_hw32 : w < 2 ^ 32) {rs : List BitRange}
    (hwf : ∀ r ∈ rs, r.stop ≤ 32)
    (hdis : List.Pairwise RDisj rs)
    {v : Nat} (hv32 : v < 2 ^ 32) (_hvw : v < 2 ^ totalWidth rs)
    {w' : Nat} (hsucc : instWith w rs v = some w') :
    instExtract w' rs = some (v &&& (2 ^ totalWidth rs - 1)) := by
  unfold instWith at hsucc
  cases hloop : withLoop v rs (w, 0) with
  | none => rw [hloop] at hsucc; cases hsucc
  | some q =>
    rw [hloop] at hsucc
    obtain ⟨C, L⟩ := q
    simp only [Option.map_some', Option.some_inj] at hsucc
    subst hsucc
    unfold instExtract
    rw [extract_of_withLoop hwf hdis hloop 0]
    simp only [Nat.shiftRight_zero, Nat.shiftLeft_zero, Nat.zero_or, Option.map_some',
      Option.some_inj, Nat.zero_add]
    rw [Nat.mod_eq_of_lt (lt_of_le_of_lt Nat.and_le_left hv32)]

/-- Witness for C1 at the spec's own scenario: a 12-bit immediate split across
ranges `[0,4)` and `[20,28)` of the word `0xdeadbeef`, value `0xABC`. -/
theorem instCodeI4_roundtrip_witness :
    instExtract 0xdabdbeec [⟨0, 4⟩, ⟨20, 28⟩] = some 0xABC := by
  have h := @instCodeI4_with_extract_roundtrip
    0xdeadbeef (by decide) [⟨0, 4⟩, ⟨20, 28⟩] (by decide) (by decide)
    0xABC (by decide) (by decide) 0xdabdbeec (by decide)
  simpa using h

/-- C6: whenever `with(w, R, v)` produces a word, every bit of that word lying
outside all ranges of `R` is unchanged from its value in `w`.  No
disjointness or well-formedness assumption on `R` is needed. -/
theorem instCodeI4_with_frame
    {w : Nat} {rs : List BitRange} {v w' : Nat}
    (hsucc : instWith w rs v = some w')
    {i : Nat} (hi : i < 32)
    (hout : ∀ r ∈ rs, ¬(r.start ≤ i ∧ i < r.stop)) :
    w'.testBit i = w.testBit i := by
  unfold instWith at hsucc
  cases hloop : withLoop v rs (w, 0) with
  | none => rw [hloop] at hsucc; cases hsucc
  | some q =>
    rw [hloop] at hsucc
    obtain ⟨C, L⟩ := q
    simp only [Option.map_some', Option.some_inj] at hsucc
    subst hsucc
    exact withLoop_frame hloop hi hout

/-- Witness for C6: in the spec's scenario word, bit 5 (outside both ranges)
keeps its prior value. -/
theorem instCodeI4_frame_witness :
    (0xdabdbeec : Nat).testBit 5 = (0xdeadbeef : Nat).testBit 5 := by
  exact @instCodeI4_with_frame
    0xdeadbeef [⟨0, 4⟩, ⟨20, 28⟩] 0xABC 0xdabdbeec (by decide) 5 (by decide) (by decide)

/-! ## Byte-buffer codec (`InstCodeSlice` in `src/types/code.rs`)

The Rust source iterates `for i in r.clone()` over byte-offset ranges; that
iteration is modelled by the index list `List.range' r.start (r.stop - r.start)`.
Note that the source indexes `bytes[i >> 3]` and shifts by `i << 3` although
`i` ranges over byte offsets. -/

/-- Checked `u64` left shift (panics when the shift amount reaches 64,
discards bits shifted above bit 63). -/
def shl64 (x s : Nat) : Option Nat :=
  if s < 64 then some ((x <<< s) % 2 ^ 64) else none

/-- Checked `u64` right shift. -/
def shr64 (x s : Nat) : Option Nat :=
  if s < 64 then some (x >>> s) else none

/-- Rust `!m` on `u64`. -/
def not64 (m : Nat) : Nat := (2 ^ 64 - 1) ^^^ m

/-- `for i in r.clone() { part |= (bytes[i >> 3] as u64) << (i << 3); }`
(both in `InstCodeSlice::extract` and `InstCodeSlice::with`); `none` models
an out-of-bounds `bytes[i >> 3]` panic or a shift-amount panic. -/
def partLoop (bytes : List Nat) : List Nat → Nat → Option Nat
  | [], part => some part
  | i :: is, part =>
    bytes[i >>> 3]? >>= fun b =>
    shl64 b (i <<< 3) >>= fun sh =>
    partLoop bytes is (part ||| sh)

/-- `for i in r.clone() { bytes[i >> 3] = ((part >> (i << 3)) & 0xff) as u8; }`
in `InstCodeSlice::with`. -/
def writeLoop (part : Nat) : List Nat → List Nat → Option (List Nat)
  | [], bytes => some bytes
  | i :: is, bytes =>
    shr64 part (i <<< 3) >>= fun sh =>
    if i >>> 3 < bytes.length then
      writeLoop part is (bytes.set (i >>> 3) (sh &&& 255))
    else none

/-- The loop of `InstCodeSlice::extract` on the accumulator `(val, len)`. -/
def sliceExtractLoop (bytes : List Nat) : List BitRange → Nat × Nat → Option (Nat × Nat)
  | [], p => some p
  | r :: rs, p =>
    partLoop bytes (List.range' r.start (r.stop - r.start)) 0 >>= fun part =>
    shl64 part p.2 >>= fun sh =>
    if r.start ≤ r.stop then
      sliceExtractLoop bytes rs (p.1 ||| sh, p.2 + (r.stop - r.start) * 8)
    else none

/-- `InstCodeSlice::extract(&self, list)` (src/types/code.rs lines 37-51). -/
def sliceExtract (bytes : List Nat) (rs : List BitRange) : Option Nat :=
  (sliceExtractLoop bytes rs (0, 0)).map Prod.fst

/-- The loop of `InstCodeSlice::with` on the accumulator `(bytes, len)`. -/
def sliceWithLoop (v : Nat) : List BitRange → List Nat × Nat → Option (List Nat × Nat)
  | [], p => some p
  | r :: rs, p =>
    partLoop p.1 (List.range' r.start (r.stop - r.start)) 0 >>= fun part =>
    if r.start ≤ r.stop then
      shl64 1 ((r.stop - r.start) * 8) >>= fun m0 =>
      shl64 (m0 - 1) (r.start * 8) >>= fun mask =>
      shr64 v p.2 >>= fun v1 =>
      shl64 v1 (r.start * 8) >>= fun v2 =>
      writeLoop ((part &&& not64 mask) ||| (v2 &&& mask))
          (List.range' r.start (r.stop - r.start)) p.1 >>= fun bytes2 =>
      sliceWithLoop v rs (bytes2, p.2 + (r.stop - r.start) * 8)
    else none

/-- `InstCodeSlice::with(self, inst, val)` (src/types/code.rs lines 53-70). -/
def sliceWith (bytes : List Nat) (rs : List BitRange) (v : Nat) : Option (List Nat) :=
  (sliceWithLoop v rs (bytes, 0)).map Prod.fst

/-- C2 (refuted): the byte-buffer codec does NOT satisfy the round-trip.
With buffer `[0, 0]`, the single byte range `0..2` and value `0x1234`,
`with` produces `[0x12, 0]` (both iterations of the write loop store to
`bytes[i >> 3] = bytes[0]`), and `extract` with the same range returns
`0x1212`, not `0x1234 & 0xFFFF`. -/
theorem instCodeSlice_roundtrip_fails :
    sliceWith [0, 0] [⟨0, 2⟩] 0x1234 = some [0x12, 0] ∧
    sliceExtract [0x12, 0] [⟨0, 2⟩] = some 0x1212 ∧
    (0x1212 : Nat) ≠ 0x1234 &&& (2 ^ 16 - 1) := by
  refine ⟨by decide, by decide, by decide⟩

/-- C9 (refuted): an out-of-range byte index does NOT make the byte-buffer
codec fail.  With buffer `[0xAB]` of length 1 and range `4..5`, the index 4
is out of range, yet `extract` succeeds (silently reading `bytes[4 >> 3] =
bytes[0]`) and `with` succeeds (silently writing `bytes[0]`). -/
theorem instCodeSlice_oob_silent :
    4 ≥ ([0xAB] : List Nat).length ∧
    sliceExtract [0xAB] [⟨4, 5⟩] = some 0xAB00000000 ∧
    sliceWith [0xAB] [⟨4, 5⟩] 0xFF = some [0xFF] := by
  refine ⟨by decide, by decide, by decide⟩

/-! ## Permission buffers (`src/types/perms.rs`) -/

/-- `Perms<bool>`: one boolean per permission kind. -/
structure PermsB where
  r : Bool
  w : Bool
  x : Bool
  nj : Bool
deriving DecidableEq

/-- The five parallel sequences of an `InputRef` view or an owned `Input`. -/
structure InputM where
  code : List Nat
  r : List Bool
  w : List Bool
  x : List Bool
  nj : List Bool
deriving DecidableEq

/-- The equal-length invariant attested by `attest_same_size`. -/
def InputM.sameLen (s : InputM) : Prop :=
  s.r.length = s.code.length ∧ s.w.length = s.code.length ∧
    s.x.length = s.code.length ∧ s.nj.length = s.code.length

instance instDecSameLen (s : InputM) : Decidable s.sameLen := by
  unfold InputM.sameLen; infer_instance

/-- `InputRef::new(code, perms)` (src/types/perms.rs lines 325-341): succeeds
exactly when `[r, w, x, nj].iter().all(|a| a.len() == code.len())`. -/
def InputRef.new (code : List Nat) (r w x nj : List Bool) : Option InputM :=
  if r.length = code.length ∧ w.length = code.length ∧
      x.length = code.length ∧ nj.length = code.length then
    some ⟨code, r, w, x, nj⟩
  else none

/-- `Input::new(code, perms)` (src/types/perms.rs lines 417-434): the same
length check on the owned vectors. -/
def Input.new (code : List Nat) (r w x nj : List Bool) : Option InputM :=
  if r.length = code.length ∧ w.length = code.length ∧
      x.length = code.length ∧ nj.length = code.length then
    some ⟨code, r, w, x, nj⟩
  else none

/-- `InputRef::subref(a..b)` (src/types/perms.rs lines 281-295): Rust slicing
`&l[a..b]` applied to all five slices; slicing panics (`none`) unless
`a ≤ b ∧ b ≤ l.len()` for each slice. -/
def InputM.subref (s : InputM) (a b : Nat) : Option InputM :=
  if a ≤ b ∧ b ≤ s.code.length ∧ b ≤ s.r.length ∧ b ≤ s.w.length ∧
      b ≤ s.x.length ∧ b ≤ s.nj.length then
    some ⟨(s.code.take b).drop a, (s.r.take b).drop a, (s.w.take b).drop a,
          (s.x.take b).drop a, (s.nj.take b).drop a⟩
  else none

/-- `i.subref(x..)` as invoked by `write_all` (src/types/perms.rs line 228). -/
def InputM.subrefFrom (s : InputM) (a : Nat) : Option InputM :=
  if a ≤ s.code.length ∧ a ≤ s.r.length ∧ a ≤ s.w.length ∧
      a ≤ s.x.length ∧ a ≤ s.nj.length then
    some ⟨s.code.drop a, s.r.drop a, s.w.drop a, s.x.drop a, s.nj.drop a⟩
  else none

/-- `Input::extend(iter)` (src/types/perms.rs lines 452-460): per item, one
element is pushed onto each of the five backing sequences. -/
def InputM.extend (s : InputM) (items : List (Nat × PermsB)) : InputM :=
  items.foldl (fun t cp =>
    ⟨t.code ++ [cp.1], t.r ++ [cp.2.r], t.w ++ [cp.2.w],
     t.x ++ [cp.2.x], t.nj ++ [cp.2.nj]⟩) s

/-- One `subref` or `extend` operation on a permission buffer. -/
inductive BufOp where
  | subref (a b : Nat)
  | extend (items : List (Nat × PermsB))

/-- Apply one operation (`none` models a slicing panic). -/
def applyOp (s : InputM) : BufOp → Option InputM
  | .subref a b => s.subref a b
  | .extend items => some (s.extend items)

/-- Apply a sequence of operations. -/
def applyOps (s : InputM) : List BufOp → Option InputM
  | [] => some s
  | op :: ops => applyOp s op >>= fun t => applyOps t ops

theorem subref_sameLen {s t : InputM} {a b : Nat} (hs : s.sameLen)
    (h : s.subref a b = some t) : t.sameLen := by
  unfold InputM.subref at h
  split at h
  case isFalse => cases h
  case isTrue hcond =>
    injection h with h
    subst h
    obtain ⟨h1, h2, h3, h4⟩ := hs
    unfold InputM.sameLen
    simp only [List.length_drop, List.length_take]
    omega

theorem extend_sameLen : ∀ {items : List (Nat × PermsB)} {s : InputM},
    s.sameLen → (s.extend items).sameLen := by
  intro items
  induction items with
  | nil => intro s hs; simpa [InputM.extend] using hs
  | cons it its ih =>
    intro s hs
    have hstep : s.extend (it :: its) =
        InputM.extend ⟨s.code ++ [it.1], s.r ++ [it.2.r], s.w ++ [it.2.w],
          s.x ++ [it.2.x], s.nj ++ [it.2.nj]⟩ its := by
      simp [InputM.extend]
    rw [hstep]
    apply ih
    obtain ⟨h1, h2, h3, h4⟩ := hs
    unfold InputM.sameLen
    simp only [List.length_append, List.length_cons, List.length_nil]
    omega

/-- C4: starting from any validly constructed buffer (the equal-length
invariant holds), any sequence of `extend`/`subref` operations that executes
without a slicing panic preserves the invariant; since every prefix of the
sequence is itself such a sequence, the invariant holds after every
operation. -/
theorem permBuffer_ops_preserve_sameLen : ∀ {ops : List BufOp} {s t : InputM},
    s.sameLen → applyOps s ops = some t → t.sameLen := by
  intro ops
  induction ops with
  | nil =>
    intro s t hs h
    simp only [applyOps, Option.some_inj] at h
    rwa [← h]
  | cons op ops ih =>
    intro s t hs h
    unfold applyOps at h
    cases hop : applyOp s op with
    | none => rw [hop] at h; cases h
    | some u =>
      rw [hop, optSomeBind] at h
      refine ih ?_ h
      cases op with
      | subref a b => exact subref_sameLen hs hop
      | extend items =>
        simp only [applyOp, Option.some_inj] at hop
        rw [← hop]
        exact extend_sameLen hs

/-- Witness for C4: a concrete buffer, an `extend` followed by a `subref`. -/
theorem permBuffer_ops_witness :
    InputM.sameLen ⟨[2], [false], [true], [false], [true]⟩ :=
  @permBuffer_ops_preserve_sameLen
    [BufOp.extend [(2, ⟨false, true, false, true⟩)], BufOp.subref 1 2]
    ⟨[1], [true], [false], [true], [false]⟩
    ⟨[2], [false], [true], [false], [true]⟩
    (by decide) (by decide)

/-- C7: both constructors return a value exactly when all four permission
sequences have length equal to the code sequence; on any mismatch the result
is absent (`none`), not a panic. -/
theorem input_new_some_iff (code : List Nat) (r w x nj : List Bool) :
    ((InputRef.new code r w x nj).isSome ↔
      (r.length = code.length ∧ w.length = code.length ∧
        x.length = code.length ∧ nj.length = code.length)) ∧
    ((Input.new code r w x nj).isSome ↔
      (r.length = code.length ∧ w.length = code.length ∧
        x.length = code.length ∧ nj.length = code.length)) := by
  constructor
  · unfold InputRef.new
    split <;> simp_all
  · unfold Input.new
    split <;> simp_all

/-! ## The streaming sink contract (`InputStream` in `src/types/perms.rs`) -/

/-- `InputStream::write_all` (src/types/perms.rs lines 225-232), with explicit
fuel:

`while i.code.len() > 0 { let x = self.write(i.nest())?; i = i.subref(x..); }`

The sink is a state-passing `write` function; `none` means the loop has not
finished within `fuel` iterations (or a slicing panic occurred — the sinks
considered below never take that branch). -/
def writeAllFuel {σ ε : Type} (wr : σ → InputM → σ × Except ε Nat) :
    Nat → σ → InputM → Option (σ × Except ε Unit)
  | 0, _, _ => none
  | fuel + 1, s, i =>
    if i.code.length = 0 then some (s, Except.ok ())
    else
      match wr s i with
      | (s2, Except.error e) => some (s2, Except.error e)
      | (s2, Except.ok x) =>
        match i.subrefFrom x with
        | none => none
        | some i2 => writeAllFuel wr fuel s2 i2

/-- A sink whose `write` always reports 0 bytes consumed — permitted by the
`write` contract, which allows consuming fewer bytes than offered. -/
def zeroSink : Unit → InputM → Unit × Except Unit Nat := fun _ _ => ((), Except.ok 0)

theorem writeAllFuel_zeroSink_none :
    ∀ (fuel : Nat) (i : InputM), 0 < i.code.length →
      writeAllFuel zeroSink fuel () i = none := by
  intro fuel
  induction fuel with
  | zero => intro i hi; rfl
  | succ n ih =>
    intro i hi
    obtain ⟨c, r, w, x, nj⟩ := i
    simp only [List.length_pos] at hi
    simpa [writeAllFuel, zeroSink, InputM.subrefFrom, hi] using
      ih ⟨c, r, w, x, nj⟩ (by simpa [List.length_pos] using hi)

/-- C3 counterexample: for a sink whose `write` always reports consuming 0
bytes (which the `write` contract permits) and a one-byte view, `write_all`
yields no result at any fuel bound — the loop never finishes, so `write_all`
does not terminate with a fatal error as the claim requires. -/
theorem writeAll_zero_sink_never_finishes :
    ¬ ∃ (fuel : Nat) (res : Unit × Except Unit Unit),
        writeAllFuel zeroSink fuel () ⟨[0x90], [true], [false], [true], [false]⟩ =
          some res := by
  rintro ⟨fuel, res, h⟩
  rw [writeAllFuel_zeroSink_none fuel _ (by decide)] at h
  cases h

/-- C3 (amended): `write_all` has no zero-progress check: on any view with
bytes remaining, a sink whose `write` keeps returning `Ok(0)` makes the
`while` loop re-offer the same view forever — the zero-progress write is
retried forever instead of being treated as a fatal error. -/
theorem writeAll_zero_progress_loops_forever {i : InputM} (hi : 0 < i.code.length) :
    ∀ fuel : Nat, writeAllFuel zeroSink fuel () i = none := fun fuel =>
  writeAllFuel_zeroSink_none fuel i hi

/-- Witness for the amended C3 at a concrete one-byte view. -/
theorem writeAll_zero_progress_witness :
    writeAllFuel zeroSink 5 () ⟨[0x90], [true], [false], [true], [false]⟩ = none :=
  writeAll_zero_progress_loops_forever (by decide) 5

/-- `impl InputStream for Input`, `fn write` (src/types/perms.rs lines
472-485): extends all five backing sequences by the whole view and returns
`Ok(i.code.len())`; the error type `NoError` is uninhabited (`Empty`). -/
def Input.write (s : InputM) (i : InputM) : InputM × Except Empty Nat :=
  (⟨s.code ++ i.code, s.r ++ i.r, s.w ++ i.w, s.x ++ i.x, s.nj ++ i.nj⟩,
   Except.ok i.code.length)

/-- C10: the owned buffer's `write` consumes the entire view in one call,
appending everything and returning the full length with an uninhabited error
type; consequently `write_all` finishes (two loop iterations of fuel always
suffice) with the whole view appended and no error. -/
theorem input_write_consumes_all {s i : InputM} (hi : i.sameLen) :
    Input.write s i =
      (⟨s.code ++ i.code, s.r ++ i.r, s.w ++ i.w, s.x ++ i.x, s.nj ++ i.nj⟩,
       Except.ok i.code.length) ∧
    writeAllFuel Input.write 2 s i =
      some (⟨s.code ++ i.code, s.r ++ i.r, s.w ++ i.w, s.x ++ i.x, s.nj ++ i.nj⟩,
            Except.ok ()) := by
  obtain ⟨h1, h2, h3, h4⟩ := hi
  refine ⟨rfl, ?_⟩
  by_cases hc : i.code.length = 0
  · have hcode : i.code = [] := List.length_eq_zero.mp hc
    have hr : i.r = [] := List.length_eq_zero.mp (by omega)
    have hw : i.w = [] := List.length_eq_zero.mp (by omega)
    have hx : i.x = [] := List.length_eq_zero.mp (by omega)
    have hnj : i.nj = [] := List.length_eq_zero.mp (by omega)
    cases s
    simp [writeAllFuel, hcode, hr, hw, hx, hnj]
  · have hsub : i.subrefFrom i.code.length =
        some ⟨[], [], [], [], []⟩ := by
      unfold InputM.subrefFrom
      rw [if_pos (by omega)]
      congr 1
      have dcode : i.code.drop i.code.length = [] := List.drop_length i.code
      have dr : i.r.drop i.code.length = [] := by rw [← h1]; exact List.drop_length i.r
      have dw : i.w.drop i.code.length = [] := by rw [← h2]; exact List.drop_length i.w
      have dx : i.x.drop i.code.length = [] := by rw [← h3]; exact List.drop_length i.x
      have dnj : i.nj.drop i.code.length = [] := by rw [← h4]; exact List.drop_length i.nj
      rw [dcode, dr, dw, dx, dnj]
    rw [show (2 : Nat) = 1 + 1 from rfl]
    unfold writeAllFuel
    rw [if_neg hc]
    show (match i.subrefFrom i.code.length with
      | none => none
      | some i2 => writeAllFuel Input.write 1 _ i2) = _
    rw [hsub]
    unfold writeAllFuel
    rfl

/-- Witness for C10 at a concrete owned buffer and view. -/
theorem input_write_consumes_all_witness :
    Input.write ⟨[1], [true], [true], [true], [true]⟩
        ⟨[2], [false], [false], [false], [false]⟩ =
      (⟨[1, 2], [true, false], [true, false], [true, false], [true, false]⟩,
       Except.ok 1) ∧
    writeAllFuel Input.write 2 ⟨[1], [true], [true], [true], [true]⟩
        ⟨[2], [false], [false], [false], [false]⟩ =
      some (⟨[1, 2], [true, false], [true, false], [true, false], [true, false]⟩,
            Except.ok ()) :=
  input_write_consumes_all (by decide)

/-! ## WideConstant (`Constant` in `src/types/value.rs`) -/

/-- Checked unsigned subtraction (Rust panics on underflow). -/
def nsub (a b : Nat) : Option Nat := if b ≤ a then some (a - b) else none

/-- Checked `usize` left shift. -/
def shlUsize (x s : Nat) : Option Nat :=
  if s < 64 then some ((x <<< s) % 2 ^ 64) else none

/-- The 512-bit backing store: eight 64-bit words (`data: [u64; 8]`). -/
structure Constant where
  data : List Nat
deriving DecidableEq

/-- `u64::from_ne_bytes` on a little-endian host: 8 bytes, LSB first. -/
def u64OfLEBytes (l : List Nat) : Nat := l.foldr (fun b acc => b + 256 * acc) 0

/-- `u64::to_ne_bytes` on a little-endian host. -/
def u64ToLEBytes (v : Nat) : List Nat :=
  [v % 256, v / 256 % 256, v / 256 / 256 % 256, v / 256 / 256 / 256 % 256,
   v / 256 / 256 / 256 / 256 % 256, v / 256 / 256 / 256 / 256 / 256 % 256,
   v / 256 / 256 / 256 / 256 / 256 / 256 % 256,
   v / 256 / 256 / 256 / 256 / 256 / 256 / 256 % 256]

/-- `Itertools::batching` with `array_init::from_iter` over 8-byte chunks:
groups of exactly 8; a final incomplete group ends the iteration. -/
def batch8 : List Nat → List (List Nat)
  | b0 :: b1 :: b2 :: b3 :: b4 :: b5 :: b6 :: b7 :: rest =>
    [b0, b1, b2, b3, b4, b5, b6, b7] :: batch8 rest
  | _ => []

/-- `Constant::from_bytes(b, i)` (src/types/value.rs lines 104-112): chains
the input with `(512/8) - (1 << (b.log2 - 3))` zero bytes, batches the chain
into 8-byte groups combined by `u64::from_ne_bytes`, and collects exactly 8
words (`array_init::from_iter` yields nothing if fewer).  `none` also models
the panics of `b.log2 - 3` underflow, shift-amount overflow and the
`64 - (1 << (b.log2 - 3))` underflow. -/
def Constant.from_bytes (log2 : Nat) (i : List Nat) : Option Constant :=
  nsub log2 3 >>= fun k =>
  shlUsize 1 k >>= fun n =>
  nsub (512 / 8) n >>= fun pad =>
  let words := (batch8 (i ++ List.replicate pad 0)).map u64OfLEBytes
  if 8 ≤ words.length then some ⟨words.take 8⟩ else none

/-- `Constant::bytes(&self, b)` (src/types/value.rs lines 71-76): flattens
the eight words to native-endian bytes and takes `1 << (b.log2 - 3)`. -/
def Constant.bytes (c : Constant) (log2 : Nat) : Option (List Nat) :=
  nsub log2 3 >>= fun k =>
  shlUsize 1 k >>= fun n =>
  some (((c.data.map u64ToLEBytes).flatten).take n)

theorem u64_le_bytes_roundtrip {b0 b1 b2 b3 b4 b5 b6 b7 : Nat}
    (h0 : b0 < 256) (h1 : b1 < 256) (h2 : b2 < 256) (h3 : b3 < 256)
    (h4 : b4 < 256) (h5 : b5 < 256) (h6 : b6 < 256) (h7 : b7 < 256) :
    u64ToLEBytes (u64OfLEBytes [b0, b1, b2, b3, b4, b5, b6, b7]) =
      [b0, b1, b2, b3, b4, b5, b6, b7] := by
  simp only [u64OfLEBytes, u64ToLEBytes, List.foldr_cons, List.foldr_nil]
  norm_num
  omega

theorem batch8_length : ∀ l : List Nat, (batch8 l).length = l.length / 8
  | [] => by simp [batch8]
  | [b0] => by simp [batch8]
  | [b0, b1] => by simp [batch8]
  | [b0, b1, b2] => by simp [batch8]
  | [b0, b1, b2, b3] => by simp [batch8]
  | [b0, b1, b2, b3, b4] => by simp [batch8]
  | [b0, b1, b2, b3, b4, b5] => by simp [batch8]
  | [b0, b1, b2, b3, b4, b5, b6] => by simp [batch8]
  | b0 :: b1 :: b2 :: b3 :: b4 :: b5 :: b6 :: b7 :: rest => by
    rw [batch8]
    simp only [List.length_cons, batch8_length rest]
    omega

theorem batch8_roundtrip : ∀ (m : Nat) (l : List Nat), 8 * m ≤ l.length →
    (∀ b ∈ l, b < 256) →
    ((((batch8 l).map u64OfLEBytes).take m).map u64ToLEBytes).flatten = l.take (8 * m) := by
  intro m
  induction m with
  | zero => simp
  | succ m ih =>
    intro l hlen hb
    obtain ⟨b0, b1, b2, b3, b4, b5, b6, b7, rest, rfl⟩ :
        ∃ b0 b1 b2 b3 b4 b5 b6 b7 rest,
          l = b0 :: b1 :: b2 :: b3 :: b4 :: b5 :: b6 :: b7 :: rest := by
      rcases l with - | ⟨b0, l⟩; · simp at hlen
      rcases l with - | ⟨b1, l⟩; · simp at hlen; omega
      rcases l with - | ⟨b2, l⟩; · simp at hlen; omega
      rcases l with - | ⟨b3, l⟩; · simp at hlen; omega
      rcases l with - | ⟨b4, l⟩; · simp at hlen; omega
      rcases l with - | ⟨b5, l⟩; · simp at hlen; omega
      rcases l with - | ⟨b6, l⟩; · simp at hlen; omega
      rcases l with - | ⟨b7, l⟩; · simp at hlen; omega
      exact ⟨b0, b1, b2, b3, b4, b5, b6, b7, l, rfl⟩
    rw [batch8]
    simp only [List.map_cons, List.take_succ_cons, List.flatten_cons]
    rw [u64_le_bytes_roundtrip (hb b0 (by simp)) (hb b1 (by simp)) (hb b2 (by simp))
      (hb b3 (by simp)) (hb b4 (by simp)) (hb b5 (by simp)) (hb b6 (by simp))
      (hb b7 (by simp))]
    rw [ih rest (by simp at hlen; omega) (fun b hbm => hb b (by simp [hbm]))]
    rw [show 8 * (m + 1) = ((((((((8 * m) + 1) + 1) + 1) + 1) + 1) + 1) + 1) + 1 from by ring]
    simp only [List.take_succ_cons, List.cons_append, List.nil_append]

/-- C5: whenever `from_bytes(b, xs)` produces a constant (which forces
`3 ≤ log2 ≤ 9` and `xs` long enough), `bytes(b)` on the result reproduces
the first `2^(log2-3)` bytes of `xs` exactly. -/
theorem constant_from_bytes_bytes_roundtrip
    {log2 : Nat} {xs : List Nat} {c : Constant}
    (hb : ∀ b ∈ xs, b < 256)
    (h : Constant.from_bytes log2 xs = some c) :
    Constant.bytes c log2 = some (xs.take (2 ^ (log2 - 3))) := by
  unfold Constant.from_bytes at h
  unfold nsub shlUsize at h
  by_cases hk : 3 ≤ log2
  case neg => rw [if_neg hk] at h; cases h
  rw [if_pos hk, optSomeBind] at h
  by_cases hk64 : log2 - 3 < 64
  case neg => rw [if_neg hk64] at h; cases h
  rw [if_pos hk64, optSomeBind] at h
  have hn : (1 <<< (log2 - 3)) % 2 ^ 64 = 2 ^ (log2 - 3) := by
    rw [Nat.shiftLeft_eq, one_mul]
    exact Nat.mod_eq_of_lt (Nat.pow_lt_pow_right (by omega) hk64)
  rw [hn] at h
  by_cases hn64 : 2 ^ (log2 - 3) ≤ 512 / 8
  case neg => rw [if_neg hn64] at h; cases h
  rw [if_pos hn64, optSomeBind] at h
  set n := 2 ^ (log2 - 3) with hndef
  set padded := xs ++ List.replicate (512 / 8 - n) 0 with hpad
  by_cases hw8 : 8 ≤ ((batch8 padded).map u64OfLEBytes).length
  case neg => rw [if_neg hw8] at h; cases h
  rw [if_pos hw8] at h
  injection h with h
  have hplen : 64 ≤ padded.length := by
    rw [List.length_map, batch8_length] at hw8
    omega
  have hxslen : n ≤ xs.length := by
    rw [hpad] at hplen
    simp only [List.length_append, List.length_replicate] at hplen
    omega
  have hpb : ∀ b ∈ padded, b < 256 := by
    intro b hbm
    rw [hpad] at hbm
    rcases List.mem_append.mp hbm with hm | hm
    · exact hb b hm
    · rw [List.eq_of_mem_replicate hm]; omega
  unfold Constant.bytes nsub shlUsize
  rw [if_pos hk, optSomeBind, if_pos hk64, optSomeBind, hn, ← h]
  rw [show ((Constant.mk (((batch8 padded).map u64OfLEBytes).take 8)).data) =
    ((batch8 padded).map u64OfLEBytes).take 8 from rfl]
  rw [batch8_roundtrip 8 padded (by omega) hpb]
  rw [List.take_take]
  rw [show min n (8 * 8) = n from by omega]
  rw [hpad, List.take_append_of_le_length hxslen]

/-- Witness for C5 at the spec's own example: bitness 64 (`log2 = 6`) and
input bytes `[1..8]`. -/
theorem constant_roundtrip_witness :
    Constant.bytes ⟨[0x0807060504030201, 0, 0, 0, 0, 0, 0, 0]⟩ 6 =
      some [1, 2, 3, 4, 5, 6, 7, 8] := by
  have h := @constant_from_bytes_bytes_roundtrip
    6 [1, 2, 3, 4, 5, 6, 7, 8] ⟨[0x0807060504030201, 0, 0, 0, 0, 0, 0, 0]⟩
    (by decide) (by decide)
  simpa using h

/-- C8 (refuted): `from_bytes` does not consume exactly `2^(log2-3)` bytes
and zero-fill the remainder.  With `log2 = 3` (8 bits, so exactly one byte
should be consumed) and input `[1, 2]`, the zero padding is appended AFTER
the whole input, so the stored low word is `513 = 1 + 2·256`: the second
input byte leaks into the store where the claim requires a zero. -/
theorem from_bytes_overconsumes :
    Constant.from_bytes 3 [1, 2] = some ⟨[513, 0, 0, 0, 0, 0, 0, 0]⟩ ∧
    u64ToLEBytes 513 = [1, 2, 0, 0, 0, 0, 0, 0] ∧
    (2 : Nat) ≠ 0 := by
  refine ⟨by decide, by decide, by decide⟩

end AsmCommon
